import Mathlib

/-!
Verification of the xcp index ancestry diagnosis/repair pipeline
(`xcp_index_diag.py`): a three-phase pass over a batch-structured index
that detects directories with incomplete ancestry (Diagnosing), locates
their metadata and full parent chains in other batches (Locating), and
rebuilds every batch with the located ancestry merged in (Rebuilding),
optionally replacing the original index file (Replacing).

The embedding models Python dicts as association lists with first-match
lookup (`lk`), Python sets as `Finset`, and the unbounded `while` walks
over parent chains as fuel-indexed functions (`diagWalk`, `fullAncestry`);
a `fuelOut` result corresponds to the Python loop still running after the
given number of iterations, so the Python loop terminates on an input iff
some fuel settles the walk there.
-/

namespace XcpIndexDiag

/-- Opaque filehandle of a file-system object (`fh`/`parfh` in the source). -/
abbrev Handle := Nat

/-- One scanned object's record: its own handle, its parent handle
(`None` for the root), whether it is a directory (`x.a.type == nfs3.DIR`)
and whether it has a digest (`x.digest`). Index tuples stored in ancestry
maps are read only through their parent field (`idx.IdxEnt.PARFH`). -/
structure Entry where
  fh : Handle
  parfh : Option Handle
  dirType : Bool
  digest : Bool
deriving DecidableEq

/-- A Python dict from `Handle` to `Entry`, as an association list:
lookup returns the first matching pair, and `dict.update` prepends. -/
abbrev Dict := List (Handle × Entry)

/-- Dict lookup: first pair whose key matches. -/
def lk : Dict → Handle → Option Entry
  | [], _ => none
  | (k, e) :: rest, h => if h = k then some e else lk rest h

/-- `m.update(a)` in Python: every key of `a` overrides `m`. -/
def dUpdate (m a : Dict) : Dict := a ++ m

/-- `len` of a Python dict: number of distinct keys. -/
def dlen (m : Dict) : Nat := (m.map Prod.fst).dedup.length

/-- `idx.MultiBatch`: the in-memory consolidation of a window of physical
batches, exposing the unified file entries, dir entries and ancestry map. -/
structure MultiBatch where
  files : List Entry
  dirs : List Entry
  ancestry : Dict
deriving DecidableEq

/-- Outcome of the Diagnose worker's parent-chain walk for one starting
entry: the loop exits without recording (`ok`), records the first handle
absent from the map (`missing`), or is still running when fuel runs out. -/
inductive DWRes where
  | fuelOut
  | ok
  | missing (h : Handle)
deriving DecidableEq

/-- The `while parfh:` loop of `DiagnoseBatch.gRun`: follow parent
handles through the batch ancestry map, stopping at the first handle
absent from the map (recorded as missing) or at a root (`parfh = None`). -/
def diagWalk (anc : Dict) : Option Handle → Nat → DWRes
  | none, _ => DWRes.ok
  | some _, 0 => DWRes.fuelOut
  | some p, fuel+1 =>
    match lk anc p with
    | none => DWRes.missing p
    | some e => diagWalk anc e.parfh fuel

/-- The handles inspected (value of the `parfh` loop variable at the top
of each iteration) by the Diagnose walk, in order. -/
def walkTrace (anc : Dict) : Option Handle → Nat → List Handle
  | none, _ => []
  | some _, 0 => []
  | some p, fuel+1 =>
    p :: (match lk anc p with
          | none => []
          | some e => walkTrace anc e.parfh fuel)

/-- One iteration of the entry loop in `DiagnoseBatch.gRun`: record a
missing handle found by the walk, then (with `-trymissing`) additionally
force-mark directory entries with a digest as missing. -/
def diagStep (tryMissing : Bool) (anc : Dict) (fuel : Nat)
    (s : Finset Handle) (x : Entry) : Finset Handle :=
  let s1 := match diagWalk anc x.parfh fuel with
    | DWRes.missing h => insert h s
    | _ => s
  if tryMissing && x.dirType && x.digest then insert x.fh s1 else s1

/-- `DiagnoseBatch.gRun`: the set of missing directory handles one
Diagnose worker reports for one Multi-Batch. -/
def diagnoseBatch (tryMissing : Bool) (mb : MultiBatch) (fuel : Nat) : Finset Handle :=
  (mb.files ++ mb.dirs).foldl (diagStep tryMissing mb.ancestry fuel) ∅

/-- The Diagnosing phase: union of every batch worker's missing set
(`index.missingDirs.update(result)` in `IndexDiag.gRun`). -/
def diagnosePhase (tryMissing : Bool) (idx : List MultiBatch) (fuel : Nat) : Finset Handle :=
  idx.foldl (fun s mb => s ∪ diagnoseBatch tryMissing mb fuel) ∅


/-- Outcome of `fullAncestry`: the complete chain (as the dict the Python
function builds, in walk order), `failed` (`return None`) the moment an
ancestor is absent, or still looping when fuel runs out. -/
inductive FARes where
  | fuelOut
  | failed
  | found (dirs : Dict)
deriving DecidableEq

/-- `fullAncestry(dfh, ancestry)`: walk the parent chain from `dfh`; if
every handle up to a root entry (parent `None`) is in the map, return the
whole chain, else return `failed` (no partial credit). -/
def fullAncestry (anc : Dict) : Handle → Nat → FARes
  | _, 0 => FARes.fuelOut
  | dfh, fuel+1 =>
    match lk anc dfh with
    | none => FARes.failed
    | some info =>
      match info.parfh with
      | none => FARes.found [(dfh, info)]
      | some p =>
        match fullAncestry anc p fuel with
        | FARes.found dirs => FARes.found ((dfh, info) :: dirs)
        | r => r

/-- One Locate worker's result triple `(located, gotAncestry, ancestries)`. -/
structure LocRes where
  located : Dict
  gotAncestry : Finset Handle
  ancestries : Dict
deriving DecidableEq

/-- One iteration of the `for dfh in index.missingDirs` loop of
`LocateBatch.gRun`: skip handles already in the global `ancestries`
snapshot; record the handle into `located` if this batch's map has it;
and if the full chain to a root is in this batch's map, mark it
ancestry-complete and merge the chain into the worker's `ancestries`. -/
def locateStep (snap mbanc : Dict) (fuel : Nat) (r : LocRes) (dfh : Handle) : LocRes :=
  if (lk snap dfh).isSome then r
  else
    let r1 : LocRes := match lk mbanc dfh with
      | some e => { r with located := dUpdate r.located [(dfh, e)] }
      | none => r
    match fullAncestry mbanc dfh fuel with
    | FARes.found a =>
        if a.isEmpty then r1
        else { r1 with gotAncestry := insert dfh r1.gotAncestry,
                       ancestries := dUpdate r1.ancestries a }
    | _ => r1

/-- `LocateBatch.gRun`: one Locate worker's result for one Multi-Batch,
given the broadcast missing set (as the iteration order of the Python
set) and the global `ancestries` snapshot. -/
def locateBatch (missing : List Handle) (snap mbanc : Dict) (fuel : Nat) : LocRes :=
  missing.foldl (locateStep snap mbanc fuel) ⟨[], ∅, []⟩

/-- The Repair Session State accumulated on the index object by
`RunIndexDiag.gRun` / `IndexDiag.gRun`. -/
structure RState where
  missingDirs : Finset Handle
  locatedDirs : Dict
  gotAncestry : Finset Handle
  ancestries : Dict

/-- Folding one Locate worker result into the session state
(`index.locatedDirs.update(located)` etc. in `IndexDiag.gRun`). -/
def applyLocate (st : RState) (r : LocRes) : RState :=
  { st with locatedDirs := dUpdate st.locatedDirs r.located,
            gotAncestry := st.gotAncestry ∪ r.gotAncestry,
            ancestries := dUpdate st.ancestries r.ancestries }

/-- Folding one Diagnose worker result into the session state
(`index.missingDirs.update(result)` in `IndexDiag.gRun`). -/
def applyDiagnose (st : RState) (r : Finset Handle) : RState :=
  { st with missingDirs := st.missingDirs ∪ r }

/-- Session state at the start of the Locating phase: `missingDirs` is
frozen from Diagnosing, the other three components empty. -/
def initState (missing : Finset Handle) : RState :=
  ⟨missing, [], ∅, []⟩

/-- The Locating phase: run the Locate worker on every Multi-Batch in
order, folding each result into the session state; each worker sees the
`ancestries` snapshot current at its dispatch. -/
def locatePhase (missing : Finset Handle) (idx : List MultiBatch) (fuel : Nat) : RState :=
  idx.foldl
    (fun st mb =>
      applyLocate st (locateBatch (missing.sort (· ≤ ·)) st.ancestries mb.ancestry fuel))
    (initState missing)

/-- `RebuildBatch.gRun`: merge the broadcast global `ancestries` into
this Multi-Batch's own map (`mb.ancestry.update(index.ancestries)`) and
re-emit its files and dirs unchanged (`idx.reindex(id, mb.ancestry,
mb.files, mb.dirs)`). -/
def rebuildBatch (ancestries : Dict) (mb : MultiBatch) : MultiBatch :=
  { mb with ancestry := dUpdate mb.ancestry ancestries }

/-- The Rebuilding phase: every Multi-Batch is rebuilt with the final
global `ancestries` map merged in. -/
def rebuildPhase (ancestries : Dict) (idx : List MultiBatch) : List MultiBatch :=
  idx.map (rebuildBatch ancestries)

/-- The parent chain from a handle, as captured by a dict, reaches a root
entry (parent `None`) with every handle on the way present in the dict.
This is the condition under which the Python chain walks terminate
successfully. -/
inductive ReachesRoot (anc : Dict) : Option Handle → Prop
  | root : ReachesRoot anc none
  | step {h : Handle} {e : Entry} : lk anc h = some e →
      ReachesRoot anc e.parfh → ReachesRoot anc (some h)

/-- Every key of the dict has its full parent chain inside the dict,
terminating at a root entry. -/
def AllRooted (anc : Dict) : Prop :=
  ∀ h, (lk anc h).isSome → ReachesRoot anc (some h)

/-- The ancestry-closure invariant on the accumulated state: the
`ancestries` map is fully rooted and every ancestry-complete handle is
one of its keys. -/
def AncInv (anc : Dict) (got : Finset Handle) : Prop :=
  AllRooted anc ∧ ∀ h ∈ got, (lk anc h).isSome

/-- Extensional equality of Python dicts (what dict equality means). -/
def dictEqv (m1 m2 : Dict) : Prop := ∀ h, lk m1 h = lk m2 h

/-- Equality of two Repair Session States as the Python values would
compare: set components by set equality, dict components extensionally. -/
def stateEqv (s1 s2 : RState) : Prop :=
  s1.missingDirs = s2.missingDirs ∧ dictEqv s1.locatedDirs s2.locatedDirs ∧
  s1.gotAncestry = s2.gotAncestry ∧ dictEqv s1.ancestries s2.ancestries

/-- Console messages the runner emits, in order (format payloads reduced
to the data they report). -/
inductive LogEvent where
  | phase1Start
  | missingTotal (n : Nat)
  | phase2Start
  | locateReport (nMissing nLocated nGot nAnc : Nat)
  | phase3Start
  | skippedRebuild
  | usingAncestry
  | sizesReport
  | notReplacing
  | backupIndexMsg
  | backupRenamesMsg
  | renamingMsg
deriving DecidableEq

/-- The individual rename operations of the Replacing sequence, in the
order `RunIndexDiag.gRun` issues them. -/
inductive RenameOp where
  | backupIndex
  | backupRenames
  | replaceIndex
deriving DecidableEq

/-- Observable outcome of one `indexdiag` run: console messages, whether
the `.new` index file was created, the batch records appended to it,
whether the closing trailer was appended, the renames performed, and
whether the run aborted on a corrupt batch. -/
structure RunTrace where
  logs : List LogEvent
  createdNewIndex : Bool
  appended : List MultiBatch
  wroteTrailer : Bool
  renames : List RenameOp
  corrupt : Bool
deriving DecidableEq

/-- Modelled from the spec: the Multi-Batch decoder (`idx.MultiBatch`,
outside this repository) raises a distinct corruption signal on a
malformed batch, which is fatal for the whole run; a batch that fails to
decode is modelled as `none` in the streamed index. The Diagnosing phase
over the streamed index, aborting at the first corrupt batch. -/
def diagnosePhaseE (tm : Bool) (fuel : Nat) :
    List (Option MultiBatch) → Finset Handle → Option (Finset Handle)
  | [], s => some s
  | none :: _, _ => none
  | some mb :: rest, s => diagnosePhaseE tm fuel rest (s ∪ diagnoseBatch tm mb fuel)

/-- Modelled from the spec: the Locating phase over the streamed index,
aborting at the first corrupt batch (decode failures propagate and
terminate the run). -/
def locatePhaseE (missing : Finset Handle) (fuel : Nat) :
    List (Option MultiBatch) → RState → Option RState
  | [], st => some st
  | none :: _, _ => none
  | some mb :: rest, st =>
    locatePhaseE missing fuel rest
      (applyLocate st (locateBatch (missing.sort (· ≤ ·)) st.ancestries mb.ancestry fuel))

/-- Modelled from the spec: the Rebuilding phase over the streamed index;
returns the batch records appended to the new index before any corrupt
batch was hit, plus whether the phase completed. -/
def rebuildPhaseE (anc : Dict) : List (Option MultiBatch) → List MultiBatch × Bool
  | [] => ([], true)
  | none :: _ => ([], false)
  | some mb :: rest =>
    let r := rebuildPhaseE anc rest
    (rebuildBatch anc mb :: r.1, r.2)

/-- `RunIndexDiag.gRun`: drive the three phases in order, report the
counts, and perform the Rebuilding and Replacing steps only when their
options were chosen; the rename sequence is backup-the-index, then
backup-the-renames-file when one exists, then rename the rebuilt index
over the original. Corruption aborts the run where it strikes. -/
def runIndexDiag (rebuildOpt replaceOpt tryMissing hasRenamef : Bool)
    (idx : List (Option MultiBatch)) (fuel : Nat) : RunTrace :=
  match diagnosePhaseE tryMissing fuel idx ∅ with
  | none => ⟨[LogEvent.phase1Start], false, [], false, [], true⟩
  | some missing =>
    match locatePhaseE missing fuel idx (initState missing) with
    | none =>
      ⟨[LogEvent.phase1Start, LogEvent.missingTotal missing.card, LogEvent.phase2Start],
       false, [], false, [], true⟩
    | some st =>
      let logs3 : List LogEvent :=
        [LogEvent.phase1Start, LogEvent.missingTotal missing.card, LogEvent.phase2Start,
         LogEvent.locateReport missing.card (dlen st.locatedDirs)
           st.gotAncestry.card (dlen st.ancestries),
         LogEvent.phase3Start]
      if rebuildOpt = false then
        ⟨logs3 ++ [LogEvent.skippedRebuild], false, [], false, [], false⟩
      else
        let rb := rebuildPhaseE st.ancestries idx
        if rb.2 = false then
          ⟨logs3 ++ [LogEvent.usingAncestry], true, rb.1, false, [], true⟩
        else
          let logs5 := logs3 ++ [LogEvent.usingAncestry, LogEvent.sizesReport]
          if replaceOpt = false then
            ⟨logs5 ++ [LogEvent.notReplacing], true, rb.1, true, [], false⟩
          else
            ⟨logs5 ++ [LogEvent.backupIndexMsg] ++
               (if hasRenamef then [LogEvent.backupRenamesMsg] else []) ++
               [LogEvent.renamingMsg],
             true, rb.1, true,
             [RenameOp.backupIndex] ++
               (if hasRenamef then [RenameOp.backupRenames] else []) ++
               [RenameOp.replaceIndex],
             false⟩

/-- Directory entry used by the concrete examples: handle 1, parent 2. -/
def entOneParTwo : Entry := ⟨1, some 2, true, false⟩

/-- File entry used by the concrete examples: handle 10, parent dir 1. -/
def fileParOne : Entry := ⟨10, some 1, false, false⟩

/-- A Multi-Batch whose map holds dir 1 (parent 2) but not dir 2: walking
from the file reaches 1, then records 2 as missing. -/
def mbHole : MultiBatch := ⟨[fileParOne], [], [(1, entOneParTwo)]⟩

/-- Root dir entry with handle 5 used by the conflicting-locate example. -/
def entFive : Entry := ⟨5, none, true, false⟩

/-- A different root entry for the same handle 5 (different `fh` field),
as a second batch may record a different tuple for the same handle. -/
def entFiveAlt : Entry := ⟨7, none, true, false⟩

/-- First batch map locating handle 5 with entry `entFive`. -/
def ancFive : Dict := [(5, entFive)]

/-- Second batch map locating handle 5 with the conflicting entry. -/
def ancFiveAlt : Dict := [(5, entFiveAlt)]

/-- Root dir entry with handle 1 for the witness index. -/
def entOneRoot : Entry := ⟨1, none, true, false⟩

/-- Dir entry with handle 2 whose parent is 1, for the witness index. -/
def entTwoParOne : Entry := ⟨2, some 1, true, false⟩

/-- Witness batch holding the full chain 2 -> 1 -> root. -/
def mbChain : MultiBatch := ⟨[], [], [(2, entTwoParOne), (1, entOneRoot)]⟩

/-- Entry whose parent handle is itself: a one-step ancestry cycle. -/
def entSelfLoop : Entry := ⟨1, some 1, true, false⟩

/-- Ancestry map holding the one-step cycle at handle 1. -/
def ancSelfLoop : Dict := [(1, entSelfLoop)]

theorem diagWalk_lk_none {anc : Dict} {p : Handle} {n : Nat}
    (h : lk anc p = none) : diagWalk anc (some p) (n+1) = DWRes.missing p := by
  unfold diagWalk
  rw [h]

theorem diagWalk_lk_some {anc : Dict} {p : Handle} {n : Nat} {e : Entry}
    (h : lk anc p = some e) :
    diagWalk anc (some p) (n+1) = diagWalk anc e.parfh n := by
  simp only [diagWalk, h]

theorem walkTrace_lk_none {anc : Dict} {p : Handle} {n : Nat}
    (h : lk anc p = none) : walkTrace anc (some p) (n+1) = [p] := by
  unfold walkTrace
  rw [h]

theorem walkTrace_lk_some {anc : Dict} {p : Handle} {n : Nat} {e : Entry}
    (h : lk anc p = some e) :
    walkTrace anc (some p) (n+1) = p :: walkTrace anc e.parfh n := by
  simp only [walkTrace, h]

section DictLemmas

theorem lk_append (a m : Dict) (h : Handle) :
    lk (a ++ m) h = (lk a h).orElse (fun _ => lk m h) := by
  induction a with
  | nil => simp [lk]
  | cons p rest ih =>
    obtain ⟨k, e⟩ := p
    by_cases hk : h = k <;> simp [lk, hk, ih]

theorem lk_mem {m : Dict} {h : Handle} {e : Entry} (hl : lk m h = some e) :
    (h, e) ∈ m := by
  induction m with
  | nil => simp [lk] at hl
  | cons p rest ih =>
    obtain ⟨k, e'⟩ := p
    by_cases hk : h = k
    · simp [lk, hk] at hl
      simp [hk, hl]
    · simp [lk, hk] at hl
      exact List.mem_cons_of_mem _ (ih hl)

theorem lk_key_mem {m : Dict} {h : Handle} {e : Entry} (hl : lk m h = some e) :
    h ∈ m.map Prod.fst := by
  have := lk_mem hl
  exact List.mem_map.mpr ⟨(h, e), this, rfl⟩

theorem lk_dUpdate_of_mem {a : Dict} {h : Handle} {e : Entry} (m : Dict)
    (hl : lk a h = some e) : lk (dUpdate m a) h = some e := by
  simp [dUpdate, lk_append, hl, Option.orElse]

theorem lk_dUpdate_of_none {a : Dict} {h : Handle} (m : Dict)
    (hl : lk a h = none) : lk (dUpdate m a) h = lk m h := by
  simp [dUpdate, lk_append, hl, Option.orElse]

theorem lk_dUpdate_isSome_left {m : Dict} {h : Handle} (a : Dict)
    (hl : (lk m h).isSome) : (lk (dUpdate m a) h).isSome := by
  cases ha : lk a h with
  | none => rw [lk_dUpdate_of_none m ha]; exact hl
  | some e => rw [lk_dUpdate_of_mem m ha]; rfl

end DictLemmas

section DiagnoseLemmas

/-- Membership in one worker's missing set, characterized over the entry
loop of `DiagnoseBatch.gRun`. -/
theorem mem_foldl_diagStep (tm : Bool) (anc : Dict) (fuel : Nat)
    (l : List Entry) (s0 : Finset Handle) (h : Handle) :
    h ∈ l.foldl (diagStep tm anc fuel) s0 ↔
      h ∈ s0 ∨ ∃ x ∈ l, diagWalk anc x.parfh fuel = DWRes.missing h ∨
        (tm = true ∧ x.dirType = true ∧ x.digest = true ∧ h = x.fh) := by
  induction l generalizing s0 with
  | nil => simp
  | cons x rest ih =>
    rw [List.foldl_cons, ih]
    constructor
    · rintro (hx | ⟨y, hy, hc⟩)
      · unfold diagStep at hx
        by_cases htm : tm && x.dirType && x.digest
        · simp only [htm, if_true] at hx
          rcases Finset.mem_insert.mp hx with hfh | hx1
          · refine Or.inr ⟨x, List.mem_cons_self x rest, Or.inr ?_⟩
            simp only [Bool.and_eq_true] at htm
            exact ⟨htm.1.1, htm.1.2, htm.2, hfh⟩
          · cases hw : diagWalk anc x.parfh fuel with
            | missing h' =>
              simp only [hw] at hx1
              rcases Finset.mem_insert.mp hx1 with rfl | hs
              · exact Or.inr ⟨x, List.mem_cons_self x rest, Or.inl hw⟩
              · exact Or.inl hs
            | ok => simp only [hw] at hx1; exact Or.inl hx1
            | fuelOut => simp only [hw] at hx1; exact Or.inl hx1
        · simp only [htm, if_false] at hx
          cases hw : diagWalk anc x.parfh fuel with
          | missing h' =>
            simp only [hw] at hx
            rcases Finset.mem_insert.mp hx with rfl | hs
            · exact Or.inr ⟨x, List.mem_cons_self x rest, Or.inl hw⟩
            · exact Or.inl hs
          | ok => simp only [hw] at hx; exact Or.inl hx
          | fuelOut => simp only [hw] at hx; exact Or.inl hx
      · exact Or.inr ⟨y, List.mem_cons_of_mem x hy, hc⟩
    · have step_mono : ∀ g ∈ s0, g ∈ diagStep tm anc fuel s0 x := by
        intro g hg
        unfold diagStep
        by_cases htm : tm && x.dirType && x.digest <;>
          cases hw : diagWalk anc x.parfh fuel <;>
            simp [htm, hw, Finset.mem_insert, hg]
      rintro (hx | ⟨y, hy, hc⟩)
      · exact Or.inl (step_mono h hx)
      · rcases List.mem_cons.mp hy with rfl | hy'
        · left
          unfold diagStep
          rcases hc with hw | ⟨htm, hd, hg, rfl⟩
          · by_cases htm : tm && y.dirType && y.digest <;>
              simp [htm, hw, Finset.mem_insert]
          · simp [htm, hd, hg, Finset.mem_insert]
        · exact Or.inr ⟨y, hy', hc⟩

theorem mem_diagnoseBatch (tm : Bool) (mb : MultiBatch) (fuel : Nat) (h : Handle) :
    h ∈ diagnoseBatch tm mb fuel ↔
      ∃ x ∈ mb.files ++ mb.dirs,
        diagWalk mb.ancestry x.parfh fuel = DWRes.missing h ∨
        (tm = true ∧ x.dirType = true ∧ x.digest = true ∧ h = x.fh) := by
  unfold diagnoseBatch
  rw [mem_foldl_diagStep]
  simp

/-- Membership in the phase-level union accumulated by `IndexDiag.gRun`. -/
theorem mem_foldl_union (f : MultiBatch → Finset Handle) (idx : List MultiBatch)
    (s0 : Finset Handle) (h : Handle) :
    h ∈ idx.foldl (fun s mb => s ∪ f mb) s0 ↔ h ∈ s0 ∨ ∃ mb ∈ idx, h ∈ f mb := by
  induction idx generalizing s0 with
  | nil => simp
  | cons mb rest ih =>
    rw [List.foldl_cons, ih]
    constructor
    · rintro (hx | ⟨mb', hm, hf⟩)
      · rcases Finset.mem_union.mp hx with hs | hf
        · exact Or.inl hs
        · exact Or.inr ⟨mb, List.mem_cons_self mb rest, hf⟩
      · exact Or.inr ⟨mb', List.mem_cons_of_mem mb hm, hf⟩
    · rintro (hx | ⟨mb', hm, hf⟩)
      · exact Or.inl (Finset.mem_union_left _ hx)
      · rcases List.mem_cons.mp hm with rfl | hm'
        · exact Or.inl (Finset.mem_union_right _ hf)
        · exact Or.inr ⟨mb', hm', hf⟩

theorem mem_diagnosePhase (tm : Bool) (idx : List MultiBatch) (fuel : Nat) (h : Handle) :
    h ∈ diagnosePhase tm idx fuel ↔ ∃ mb ∈ idx, h ∈ diagnoseBatch tm mb fuel := by
  unfold diagnosePhase
  rw [mem_foldl_union]
  simp

end DiagnoseLemmas
section ChainLemmas

theorem lk_isSome_of_mem {m : Dict} {k : Handle} {e : Entry} (hm : (k, e) ∈ m) :
    (lk m k).isSome := by
  induction m with
  | nil => simp at hm
  | cons p rest ih =>
    obtain ⟨k', e'⟩ := p
    by_cases hk : k = k'
    · simp [lk, hk]
    · rcases List.mem_cons.mp hm with heq | hm'
      · exact absurd (congrArg Prod.fst heq) hk
      · simp only [lk, if_neg hk]
        exact ih hm'

theorem lk_cons_isSome {m : Dict} {k : Handle} (k' : Handle) (e' : Entry)
    (hm : (lk m k).isSome) : (lk ((k', e') :: m) k).isSome := by
  by_cases hk : k = k' <;> simp [lk, hk, hm]

/-- Every pair recorded by a successful `fullAncestry` walk is an entry
of the ancestry map it walked. -/
theorem fullAncestry_entries {anc : Dict} {fuel : Nat} :
    ∀ {dfh : Handle} {l : Dict}, fullAncestry anc dfh fuel = FARes.found l →
      ∀ p ∈ l, lk anc p.1 = some p.2 := by
  induction fuel with
  | zero => intro dfh l hl; simp [fullAncestry] at hl
  | succ n ih =>
    intro dfh l hl p hp
    unfold fullAncestry at hl
    cases hlk : lk anc dfh with
    | none => simp [hlk] at hl
    | some info =>
      cases hpar : info.parfh with
      | none =>
        simp only [hlk, hpar, FARes.found.injEq] at hl
        subst hl
        rcases List.mem_singleton.mp hp with rfl
        exact hlk
      | some q =>
        simp only [hlk, hpar] at hl
        cases hrec : fullAncestry anc q n with
        | found dirs =>
          simp only [hrec, FARes.found.injEq] at hl
          subst hl
          rcases List.mem_cons.mp hp with rfl | hp'
          · exact hlk
          · exact ih hrec p hp'
        | fuelOut => simp [hrec] at hl
        | failed => simp [hrec] at hl

/-- A successful `fullAncestry` result starts with the queried handle's
own entry (so the queried handle is always a key of the result). -/
theorem fullAncestry_shape {anc : Dict} {fuel : Nat} {dfh : Handle} {l : Dict}
    (hl : fullAncestry anc dfh fuel = FARes.found l) :
    ∃ info tail, lk anc dfh = some info ∧ l = (dfh, info) :: tail := by
  cases fuel with
  | zero => simp [fullAncestry] at hl
  | succ n =>
    unfold fullAncestry at hl
    cases hlk : lk anc dfh with
    | none => simp [hlk] at hl
    | some info =>
      cases hpar : info.parfh with
      | none =>
        simp only [hlk, hpar, FARes.found.injEq] at hl
        exact ⟨info, [], rfl, hl.symm⟩
      | some q =>
        simp only [hlk, hpar] at hl
        cases hrec : fullAncestry anc q n with
        | found dirs =>
          simp only [hrec, FARes.found.injEq] at hl
          exact ⟨info, dirs, rfl, hl.symm⟩
        | fuelOut => simp [hrec] at hl
        | failed => simp [hrec] at hl

/-- Every key of a successful `fullAncestry` result has its own
successful `fullAncestry` walk whose result's keys all lie inside the
original result (chains are closed under taking ancestors). -/
theorem fullAncestry_suffix {anc : Dict} {fuel : Nat} :
    ∀ {dfh : Handle} {l : Dict}, fullAncestry anc dfh fuel = FARes.found l →
      ∀ p ∈ l, ∃ m l2, fullAncestry anc p.1 m = FARes.found l2 ∧
        ∀ q ∈ l2, (lk l q.1).isSome := by
  induction fuel with
  | zero => intro dfh l hl; simp [fullAncestry] at hl
  | succ n ih =>
    intro dfh l hl p hp
    have hself : ∀ q ∈ l, (lk l q.1).isSome := by
      intro q hq
      exact lk_isSome_of_mem (by exact hq)
    unfold fullAncestry at hl
    cases hlk : lk anc dfh with
    | none => simp [hlk] at hl
    | some info =>
      cases hpar : info.parfh with
      | none =>
        simp only [hlk, hpar, FARes.found.injEq] at hl
        subst hl
        rcases List.mem_singleton.mp hp with rfl
        refine ⟨n + 1, [(dfh, info)], ?_, hself⟩
        unfold fullAncestry
        simp [hlk, hpar]
      | some q =>
        simp only [hlk, hpar] at hl
        cases hrec : fullAncestry anc q n with
        | found dirs =>
          simp only [hrec, FARes.found.injEq] at hl
          subst hl
          rcases List.mem_cons.mp hp with rfl | hp'
          · refine ⟨n + 1, (dfh, info) :: dirs, ?_, hself⟩
            unfold fullAncestry
            simp [hlk, hpar, hrec]
          · obtain ⟨m, l2, hfa, hcov⟩ := ih hrec p hp'
            exact ⟨m, l2, hfa, fun q' hq' => lk_cons_isSome dfh info (hcov q' hq')⟩
        | fuelOut => simp [hrec] at hl
        | failed => simp [hrec] at hl

/-- If a map `M` agrees with `anc` wherever `M` is defined and covers all
keys of a successful chain from `dfh`, then `dfh` reaches a root in `M`. -/
theorem fullAncestry_reachesRoot {anc : Dict} {fuel : Nat} :
    ∀ {dfh : Handle} {l : Dict} (M : Dict),
      (∀ k e, lk M k = some e → lk anc k = some e) →
      (∀ p ∈ l, (lk M p.1).isSome) →
      fullAncestry anc dfh fuel = FARes.found l → ReachesRoot M (some dfh) := by
  induction fuel with
  | zero => intro dfh l M _ _ hl; simp [fullAncestry] at hl
  | succ n ih =>
    intro dfh l M hagree hcov hl
    unfold fullAncestry at hl
    cases hlk : lk anc dfh with
    | none => simp [hlk] at hl
    | some info =>
      have hMd : lk M dfh = some info := by
        have hsome : (lk M dfh).isSome := by
          cases hpar : info.parfh with
          | none =>
            simp only [hlk, hpar, FARes.found.injEq] at hl
            exact hcov (dfh, info) (hl ▸ List.mem_singleton_self _)
          | some q =>
            simp only [hlk, hpar] at hl
            cases hrec : fullAncestry anc q n with
            | found dirs =>
              simp only [hrec, FARes.found.injEq] at hl
              exact hcov (dfh, info) (hl ▸ List.mem_cons_self _ _)
            | fuelOut => simp [hrec] at hl
            | failed => simp [hrec] at hl
        obtain ⟨e', he'⟩ := Option.isSome_iff_exists.mp hsome
        have := hagree dfh e' he'
        rw [hlk] at this
        rw [he']
        exact this.symm
      cases hpar : info.parfh with
      | none =>
        refine ReachesRoot.step hMd ?_
        rw [hpar]
        exact ReachesRoot.root
      | some q =>
        simp only [hlk, hpar] at hl
        cases hrec : fullAncestry anc q n with
        | found dirs =>
          simp only [hrec, FARes.found.injEq] at hl
          refine ReachesRoot.step hMd ?_
          rw [hpar]
          refine ih M hagree ?_ hrec
          intro p hp
          exact hcov p (hl ▸ List.mem_cons_of_mem _ hp)
        | fuelOut => simp [hrec] at hl
        | failed => simp [hrec] at hl

/-- A successful `fullAncestry` result is, as a map of its own, fully
rooted: each of its keys reaches a root inside it. -/
theorem fullAncestry_allRooted {anc : Dict} {fuel : Nat} {dfh : Handle} {l : Dict}
    (hl : fullAncestry anc dfh fuel = FARes.found l) : AllRooted l := by
  intro h hsome
  obtain ⟨e, he⟩ := Option.isSome_iff_exists.mp hsome
  have hmem := lk_mem he
  obtain ⟨m, l2, hfa, hcov⟩ := fullAncestry_suffix hl (h, e) hmem
  refine fullAncestry_reachesRoot l ?_ hcov hfa
  intro k e' hk
  exact fullAncestry_entries hl (k, e') (lk_mem hk)

theorem reachesRoot_dUpdate_left {a : Dict} {s : Option Handle} (m : Dict)
    (hr : ReachesRoot a s) : ReachesRoot (dUpdate m a) s := by
  induction hr with
  | root => exact ReachesRoot.root
  | step he _ ih => exact ReachesRoot.step (lk_dUpdate_of_mem m he) ih

theorem reachesRoot_dUpdate_right {a m : Dict} {s : Option Handle}
    (ha : AllRooted a) (hr : ReachesRoot m s) : ReachesRoot (dUpdate m a) s := by
  induction hr with
  | root => exact ReachesRoot.root
  | @step h e he _ ih =>
    cases hsa : lk a h with
    | some e' =>
      exact reachesRoot_dUpdate_left m (ha h (by simp [hsa]))
    | none =>
      refine ReachesRoot.step ?_ ih
      rw [lk_dUpdate_of_none m hsa]
      exact he

/-- Overlaying one fully-rooted map over another keeps the result fully
rooted (the store invariant behind `index.ancestries.update(...)`). -/
theorem allRooted_dUpdate {m a : Dict} (hm : AllRooted m) (ha : AllRooted a) :
    AllRooted (dUpdate m a) := by
  intro h hsome
  cases hsa : lk a h with
  | some e => exact reachesRoot_dUpdate_left m (ha h (by simp [hsa]))
  | none =>
    rw [lk_dUpdate_of_none m hsa] at hsome
    exact reachesRoot_dUpdate_right ha (hm h hsome)

/-- In a fully-rooted map, the recorded parent of any key is itself a key
(one-step ancestry closure). -/
theorem allRooted_parent {A : Dict} (hA : AllRooted A) {p q : Handle} {e : Entry}
    (he : lk A p = some e) (hq : e.parfh = some q) : (lk A q).isSome := by
  have hr := hA p (by simp [he])
  cases hr with
  | step he' hr' =>
    rw [he] at he'
    rw [← Option.some.inj he', hq] at hr'
    cases hr' with
    | step he'' _ => simp [he'']

/-- Along a walk from a handle that reaches a root, every inspected
handle is present in the map. -/
theorem reachesRoot_trace {M : Dict} {fuel : Nat} :
    ∀ {s : Option Handle}, ReachesRoot M s →
      ∀ g ∈ walkTrace M s fuel, (lk M g).isSome := by
  induction fuel with
  | zero =>
    intro s _ g hg
    cases s <;> simp [walkTrace] at hg
  | succ n ih =>
    intro s hr g hg
    cases s with
    | none => simp [walkTrace] at hg
    | some p =>
      cases hr with
      | step he hr' =>
        simp only [walkTrace, he] at hg
        rcases List.mem_cons.mp hg with rfl | hg'
        · simp [he]
        · exact ih hr' g hg'

end ChainLemmas

section LocateInvariant


theorem locateStep_inv {snap mbanc : Dict} {fuel : Nat} {r : LocRes}
    (hr : AncInv r.ancestries r.gotAncestry) (dfh : Handle) :
    AncInv (locateStep snap mbanc fuel r dfh).ancestries
      (locateStep snap mbanc fuel r dfh).gotAncestry := by
  unfold locateStep
  by_cases hskip : (lk snap dfh).isSome
  · simp only [hskip, if_true]
    exact hr
  · simp only [hskip, if_false]
    have hr1 : AncInv (match lk mbanc dfh with
        | some e => { r with located := dUpdate r.located [(dfh, e)] }
        | none => r).ancestries
        (match lk mbanc dfh with
        | some e => { r with located := dUpdate r.located [(dfh, e)] }
        | none => r).gotAncestry := by
      cases lk mbanc dfh <;> exact hr
    cases hfa : fullAncestry mbanc dfh fuel with
    | fuelOut => simpa [hfa] using hr1
    | failed => simpa [hfa] using hr1
    | found a =>
      by_cases ha : a.isEmpty
      · simpa [hfa, ha] using hr1
      · simp only [hfa, ha, if_false]
        set r1 := (match lk mbanc dfh with
          | some e => { r with located := dUpdate r.located [(dfh, e)] }
          | none => r) with hr1def
        refine ⟨allRooted_dUpdate hr1.1 (fullAncestry_allRooted hfa), ?_⟩
        intro h hmem
        rcases Finset.mem_insert.mp hmem with rfl | hold
        · obtain ⟨info, tail, _, hshape⟩ := fullAncestry_shape hfa
          have : lk a h = some info := by simp [hshape, lk]
          simp [lk_dUpdate_of_mem _ this]
        · exact lk_dUpdate_isSome_left a (hr1.2 h hold)

theorem locateBatch_inv (missing : List Handle) (snap mbanc : Dict) (fuel : Nat) :
    AncInv (locateBatch missing snap mbanc fuel).ancestries
      (locateBatch missing snap mbanc fuel).gotAncestry := by
  unfold locateBatch
  have : ∀ (l : List Handle) (r : LocRes),
      AncInv r.ancestries r.gotAncestry →
      AncInv (l.foldl (locateStep snap mbanc fuel) r).ancestries
        (l.foldl (locateStep snap mbanc fuel) r).gotAncestry := by
    intro l
    induction l with
    | nil => intro r hr; exact hr
    | cons d rest ih =>
      intro r hr
      exact ih _ (locateStep_inv hr d)
  refine this missing ⟨[], ∅, []⟩ ⟨?_, ?_⟩
  · intro h hsome
    simp [lk] at hsome
  · intro h hmem
    simp at hmem

theorem applyLocate_inv {st : RState} {r : LocRes}
    (hst : AncInv st.ancestries st.gotAncestry)
    (hr : AncInv r.ancestries r.gotAncestry) :
    AncInv (applyLocate st r).ancestries (applyLocate st r).gotAncestry := by
  refine ⟨allRooted_dUpdate hst.1 hr.1, ?_⟩
  intro h hmem
  rcases Finset.mem_union.mp hmem with hold | hnew
  · exact lk_dUpdate_isSome_left r.ancestries (hst.2 h hold)
  · obtain ⟨e, he⟩ := Option.isSome_iff_exists.mp (hr.2 h hnew)
    simp [applyLocate, lk_dUpdate_of_mem st.ancestries he]

/-- The closure invariant holds at every point of the Locating phase's
result folding. -/
theorem locatePhase_inv (missing : Finset Handle) (idx : List MultiBatch) (fuel : Nat) :
    AncInv (locatePhase missing idx fuel).ancestries
      (locatePhase missing idx fuel).gotAncestry := by
  unfold locatePhase
  have : ∀ (l : List MultiBatch) (st : RState),
      AncInv st.ancestries st.gotAncestry →
      AncInv (l.foldl (fun st mb =>
          applyLocate st (locateBatch (missing.sort (· ≤ ·)) st.ancestries mb.ancestry fuel)) st).ancestries
        (l.foldl (fun st mb =>
          applyLocate st (locateBatch (missing.sort (· ≤ ·)) st.ancestries mb.ancestry fuel)) st).gotAncestry := by
    intro l
    induction l with
    | nil => intro st hst; exact hst
    | cons mb rest ih =>
      intro st hst
      exact ih _ (applyLocate_inv hst (locateBatch_inv _ _ _ _))
  refine this idx (initState missing) ⟨?_, ?_⟩
  · intro h hsome
    simp [initState, lk] at hsome
  · intro h hmem
    simp [initState] at hmem

end LocateInvariant

section RoundTrip

/-- Once the Diagnose walk steps onto a key of the fully-rooted overlay,
it can never report a missing handle: it stays inside the overlay's keys
until it reaches a root. -/
theorem diagWalk_dUpdate_no_missing {anc A : Dict} (hA : AllRooted A) :
    ∀ (fuel : Nat) (p h : Handle), (lk A p).isSome →
      diagWalk (dUpdate anc A) (some p) fuel ≠ DWRes.missing h := by
  intro fuel
  induction fuel with
  | zero => intro p h _ hw; simp [diagWalk] at hw
  | succ n ih =>
    intro p h hp hw
    obtain ⟨e, he⟩ := Option.isSome_iff_exists.mp hp
    rw [diagWalk_lk_some (lk_dUpdate_of_mem anc he)] at hw
    cases hpar : e.parfh with
    | none => rw [hpar] at hw; simp [diagWalk] at hw
    | some q =>
      rw [hpar] at hw
      exact ih q h (allRooted_parent hA he hpar) hw

/-- A missing handle reported by the Diagnose walk over a batch map with
the fully-rooted global `ancestries` merged in was already reported by
the walk over the plain batch map, and is no key of the overlay. -/
theorem diagWalk_dUpdate_missing {anc A : Dict} (hA : AllRooted A) :
    ∀ (fuel : Nat) (s : Option Handle) (h : Handle),
      diagWalk (dUpdate anc A) s fuel = DWRes.missing h →
      diagWalk anc s fuel = DWRes.missing h ∧ lk A h = none := by
  intro fuel
  induction fuel with
  | zero =>
    intro s h hw
    cases s <;> simp [diagWalk] at hw
  | succ n ih =>
    intro s h hw
    cases s with
    | none => simp [diagWalk] at hw
    | some p =>
      cases hsa : lk A p with
      | some e =>
        exact absurd hw (diagWalk_dUpdate_no_missing hA (n+1) p h (by simp [hsa]))
      | none =>
        cases hlk : lk anc p with
        | none =>
          rw [diagWalk_lk_none (by rw [lk_dUpdate_of_none anc hsa]; exact hlk)] at hw
          cases hw
          exact ⟨diagWalk_lk_none hlk, hsa⟩
        | some e =>
          rw [diagWalk_lk_some (by rw [lk_dUpdate_of_none anc hsa]; exact hlk)] at hw
          rw [diagWalk_lk_some hlk]
          exact ih e.parfh h hw

/-- Every handle marked ancestry-complete by Locating is a key of the
final global `ancestries` map. -/
theorem gotAncestry_subset_ancestries (missing : Finset Handle)
    (idx : List MultiBatch) (fuel : Nat) :
    ∀ h ∈ (locatePhase missing idx fuel).gotAncestry,
      (lk (locatePhase missing idx fuel).ancestries h).isSome :=
  (locatePhase_inv missing idx fuel).2

end RoundTrip

section Claims

/-- A handle inspected by the Diagnose walk that is absent from the map
is exactly what the walk reports missing. -/
theorem walkTrace_missing {anc : Dict} :
    ∀ (fuel : Nat) (s : Option Handle) (D : Handle),
      D ∈ walkTrace anc s fuel → lk anc D = none →
      diagWalk anc s fuel = DWRes.missing D := by
  intro fuel
  induction fuel with
  | zero =>
    intro s D hD _
    cases s <;> simp [walkTrace] at hD
  | succ n ih =>
    intro s D hD hnone
    cases s with
    | none => simp [walkTrace] at hD
    | some p =>
      cases hlk : lk anc p with
      | none =>
        rw [walkTrace_lk_none hlk] at hD
        rcases List.mem_singleton.mp hD with rfl
        exact diagWalk_lk_none hnone
      | some e =>
        rw [walkTrace_lk_some hlk] at hD
        rcases List.mem_cons.mp hD with rfl | hD'
        · rw [hlk] at hnone
          cases hnone
        · rw [diagWalk_lk_some hlk]
          exact ih e.parfh D hD' hnone

/-- C1. Round-trip repair effectiveness: running the Rebuilding phase
(merging the final global `ancestries` into every Multi-Batch) and then
re-running the Diagnosing phase on the rebuilt index yields a missing set
contained in `missingDirs` minus `gotAncestry`: every handle whose full
ancestry was found is no longer reported missing, and no new handle
becomes missing. -/
theorem claim1_roundtrip (idx : List MultiBatch) (fuel : Nat) :
    diagnosePhase false
        (rebuildPhase
          (locatePhase (diagnosePhase false idx fuel) idx fuel).ancestries idx) fuel
      ⊆ diagnosePhase false idx fuel \
          (locatePhase (diagnosePhase false idx fuel) idx fuel).gotAncestry := by
  intro h hmem
  set missing := diagnosePhase false idx fuel with hmissing
  set st := locatePhase missing idx fuel with hst
  rw [mem_diagnosePhase] at hmem
  obtain ⟨mb', hmb', hdb⟩ := hmem
  rw [rebuildPhase, List.mem_map] at hmb'
  obtain ⟨mb, hmb, rfl⟩ := hmb'
  rw [mem_diagnoseBatch] at hdb
  obtain ⟨x, hx, hcase⟩ := hdb
  rcases hcase with hw | ⟨htm, _⟩
  · have hA : AllRooted st.ancestries := (locatePhase_inv missing idx fuel).1
    have hx' : x ∈ mb.files ++ mb.dirs := hx
    have hw' : diagWalk (dUpdate mb.ancestry st.ancestries) x.parfh fuel
        = DWRes.missing h := hw
    obtain ⟨hw0, hAnone⟩ := diagWalk_dUpdate_missing hA fuel x.parfh h hw'
    refine Finset.mem_sdiff.mpr ⟨?_, ?_⟩
    · rw [hmissing, mem_diagnosePhase]
      exact ⟨mb, hmb, (mem_diagnoseBatch _ _ _ _).mpr ⟨x, hx', Or.inl hw0⟩⟩
    · intro hgot
      have hkey := gotAncestry_subset_ancestries missing idx fuel h hgot
      rw [hAnone] at hkey
      cases hkey
  · cases htm

/-- C2 as stated is refuted: there is an index with a reached directory
handle `D` that is absent from `missingDirs` after Diagnosing while `D`'s
immediate parent handle is NOT present in the ancestry mapping of the
Multi-Batch holding `D`'s entry (the code records the absent parent
itself as missing, not the child that pointed at it). -/
theorem claim2_counterexample :
    ¬ (∀ (idx : List MultiBatch) (fuel : Nat) (mb : MultiBatch) (x : Entry)
        (D : Handle) (e : Entry) (p : Handle),
        mb ∈ idx → x ∈ mb.files ++ mb.dirs →
        D ∈ walkTrace mb.ancestry x.parfh fuel →
        D ∉ diagnosePhase false idx fuel →
        lk mb.ancestry D = some e → e.parfh = some p →
        (lk mb.ancestry p).isSome) := by
  intro hclaim
  have h := hclaim [mbHole] 5 mbHole fileParOne 1 entOneParTwo 2
    (by simp) (by decide) (by decide) (by decide) (by decide) (by decide)
  exact absurd h (by decide)

/-- C2 amended: for every directory handle `D` reached by walking parent
handles from a file or dir entry of some Multi-Batch, if `D` is absent
from `missingDirs` after Diagnosing then `D` itself is present in that
Multi-Batch's ancestry mapping (the set records the first absent handle
itself). -/
theorem claim2_amended (tm : Bool) (idx : List MultiBatch) (fuel : Nat)
    (mb : MultiBatch) (x : Entry) (D : Handle)
    (hmb : mb ∈ idx) (hx : x ∈ mb.files ++ mb.dirs)
    (hreach : D ∈ walkTrace mb.ancestry x.parfh fuel)
    (hnotmiss : D ∉ diagnosePhase tm idx fuel) :
    (lk mb.ancestry D).isSome := by
  by_contra hnone
  have hnone' : lk mb.ancestry D = none := by
    cases h : lk mb.ancestry D with
    | none => rfl
    | some e => rw [h] at hnone; exact absurd rfl hnone
  have hw := walkTrace_missing fuel x.parfh D hreach hnone'
  exact hnotmiss ((mem_diagnosePhase tm idx fuel D).mpr
    ⟨mb, hmb, (mem_diagnoseBatch tm mb fuel D).mpr ⟨x, hx, Or.inl hw⟩⟩)

/-- C3. Ancestry closure invariant: at every point of the Locating
phase's folding (after any prefix of per-batch results), every key of
`ancestries` has all handles on its recorded parent chain present as
keys, and every handle in `gotAncestry` has a parent chain in
`ancestries` that terminates at an entry with parent `None`. -/
theorem claim3_closure (missing : Finset Handle) (idx : List MultiBatch)
    (fuel n : Nat) :
    (∀ h, (lk (locatePhase missing (idx.take n) fuel).ancestries h).isSome →
      ∀ fuel2 g,
        g ∈ walkTrace (locatePhase missing (idx.take n) fuel).ancestries (some h) fuel2 →
        (lk (locatePhase missing (idx.take n) fuel).ancestries g).isSome)
    ∧ ∀ h ∈ (locatePhase missing (idx.take n) fuel).gotAncestry,
        ReachesRoot (locatePhase missing (idx.take n) fuel).ancestries (some h) := by
  have hinv := locatePhase_inv missing (idx.take n) fuel
  constructor
  · intro h hsome fuel2 g hg
    exact reachesRoot_trace (hinv.1 h hsome) g hg
  · intro h hmem
    exact hinv.1 h (hinv.2 h hmem)

/-- C4. Diagnosing truncation policy: whenever the Diagnose walk records
a missing handle, that handle is absent from the mapping, it is the last
handle the walk inspected, and every earlier inspected handle is present
in the mapping — so exactly the first hole is recorded and the walk never
continues past it. -/
theorem claim4_first_hole {anc : Dict} :
    ∀ {fuel : Nat} {s : Option Handle} {h : Handle},
      diagWalk anc s fuel = DWRes.missing h →
      lk anc h = none ∧
      ∃ t, walkTrace anc s fuel = t ++ [h] ∧ ∀ g ∈ t, (lk anc g).isSome := by
  intro fuel
  induction fuel with
  | zero =>
    intro s h hw
    cases s <;> simp [diagWalk] at hw
  | succ n ih =>
    intro s h hw
    cases s with
    | none => simp [diagWalk] at hw
    | some p =>
      cases hlk : lk anc p with
      | none =>
        rw [diagWalk_lk_none hlk] at hw
        cases hw
        exact ⟨hlk, [], walkTrace_lk_none hlk, by simp⟩
      | some e =>
        rw [diagWalk_lk_some hlk] at hw
        obtain ⟨hnone, t, htr, hall⟩ := ih hw
        refine ⟨hnone, p :: t, ?_, ?_⟩
        · rw [walkTrace_lk_some hlk, htr]
          rfl
        · intro g hg
          rcases List.mem_cons.mp hg with rfl | hg'
          · simp [hlk]
          · exact hall g hg'

/-- C6. Rebuild overlay frame: the rebuilt Multi-Batch keeps its file and
dir entries unchanged, and its ancestry mapping gives the broadcast
`ancestries` entry on every key of `ancestries` and the previous entry on
every other key. -/
theorem claim6_rebuild_frame (anc : Dict) (mb : MultiBatch) :
    (rebuildBatch anc mb).files = mb.files
    ∧ (rebuildBatch anc mb).dirs = mb.dirs
    ∧ ∀ h, lk (rebuildBatch anc mb).ancestry h =
        match lk anc h with
        | some e => some e
        | none => lk mb.ancestry h := by
  refine ⟨rfl, rfl, ?_⟩
  intro h
  cases hA : lk anc h with
  | some e =>
    show lk (dUpdate mb.ancestry anc) h = some e
    exact lk_dUpdate_of_mem mb.ancestry hA
  | none =>
    show lk (dUpdate mb.ancestry anc) h = lk mb.ancestry h
    exact lk_dUpdate_of_none mb.ancestry hA

end Claims

section LocateWorker

theorem locateStep_skip (snap mbanc : Dict) (fuel : Nat) (r : LocRes) (d : Handle)
    (h : (lk snap d).isSome) : locateStep snap mbanc fuel r d = r := by
  unfold locateStep
  rw [if_pos h]

theorem locateStep_located (snap mbanc : Dict) (fuel : Nat) (r : LocRes) (h0 d : Handle) :
    lk (locateStep snap mbanc fuel r h0).located d =
      if d = h0 ∧ lk snap d = none ∧ (lk mbanc d).isSome
      then lk mbanc d else lk r.located d := by
  unfold locateStep
  by_cases hskip : (lk snap h0).isSome
  · rw [if_pos hskip]
    by_cases hd : d = h0
    · subst hd
      have hns : ¬ lk snap d = none := by
        intro hc
        rw [hc] at hskip
        cases hskip
      rw [if_neg (by rintro ⟨_, hc, _⟩; exact hns hc)]
    · rw [if_neg (by rintro ⟨hc, _, _⟩; exact hd hc)]
  · rw [if_neg hskip]
    have hsnap0 : lk snap h0 = none := by
      cases hc : lk snap h0 with
      | none => rfl
      | some e => rw [hc] at hskip; exact absurd rfl hskip
    cases hm : lk mbanc h0 with
    | some e =>
      have hloc : ∀ (res : LocRes),
          (match fullAncestry mbanc h0 fuel with
           | FARes.found a =>
              if a.isEmpty then res
              else { res with gotAncestry := insert h0 res.gotAncestry,
                              ancestries := dUpdate res.ancestries a }
           | _ => res).located = res.located := by
        intro res
        cases fullAncestry mbanc h0 fuel with
        | found a => by_cases ha : a.isEmpty <;> simp [ha]
        | fuelOut => rfl
        | failed => rfl
      simp only [hm, hloc]
      show lk (dUpdate r.located [(h0, e)]) d = _
      by_cases hd : d = h0
      · subst hd
        rw [if_pos ⟨rfl, hsnap0, by simp [hm]⟩, hm]
        exact lk_dUpdate_of_mem r.located (by simp [lk])
      · rw [if_neg (by rintro ⟨hc, _, _⟩; exact hd hc)]
        refine lk_dUpdate_of_none r.located ?_
        simp [lk, hd]
    | none =>
      have hloc : ∀ (res : LocRes),
          (match fullAncestry mbanc h0 fuel with
           | FARes.found a =>
              if a.isEmpty then res
              else { res with gotAncestry := insert h0 res.gotAncestry,
                              ancestries := dUpdate res.ancestries a }
           | _ => res).located = res.located := by
        intro res
        cases fullAncestry mbanc h0 fuel with
        | found a => by_cases ha : a.isEmpty <;> simp [ha]
        | fuelOut => rfl
        | failed => rfl
      simp only [hm, hloc]
      by_cases hd : d = h0
      · subst hd
        rw [if_neg (by rintro ⟨_, _, hc⟩; rw [hm] at hc; cases hc)]
      · rw [if_neg (by rintro ⟨hc, _, _⟩; exact hd hc)]

theorem locateStep_got (snap mbanc : Dict) (fuel : Nat) (r : LocRes) (h0 d : Handle) :
    d ∈ (locateStep snap mbanc fuel r h0).gotAncestry ↔
      d ∈ r.gotAncestry ∨
        (d = h0 ∧ lk snap d = none ∧
          ∃ a, fullAncestry mbanc d fuel = FARes.found a) := by
  unfold locateStep
  by_cases hskip : (lk snap h0).isSome
  · rw [if_pos hskip]
    constructor
    · exact Or.inl
    · rintro (hr | ⟨rfl, hc, _⟩)
      · exact hr
      · rw [hc] at hskip
        cases hskip
  · rw [if_neg hskip]
    have hsnap0 : lk snap h0 = none := by
      cases hc : lk snap h0 with
      | none => rfl
      | some e => rw [hc] at hskip; exact absurd rfl hskip
    have hgot1 : (match lk mbanc h0 with
        | some e => { r with located := dUpdate r.located [(h0, e)] }
        | none => r).gotAncestry = r.gotAncestry := by
      cases lk mbanc h0 <;> rfl
    cases hfa : fullAncestry mbanc h0 fuel with
    | found a =>
      obtain ⟨info, tail, _, rfl⟩ := fullAncestry_shape hfa
      simp only [hfa, List.isEmpty_cons, if_neg Bool.false_ne_true, hgot1]
      rw [Finset.mem_insert]
      constructor
      · rintro (rfl | hr)
        · exact Or.inr ⟨rfl, hsnap0, _, hfa⟩
        · exact Or.inl hr
      · rintro (hr | ⟨rfl, _, _⟩)
        · exact Or.inr hr
        · exact Or.inl rfl
    | fuelOut =>
      simp only [hfa, hgot1]
      constructor
      · exact Or.inl
      · rintro (hr | ⟨rfl, _, a, hc⟩)
        · exact hr
        · rw [hfa] at hc
          cases hc
    | failed =>
      simp only [hfa, hgot1]
      constructor
      · exact Or.inl
      · rintro (hr | ⟨rfl, _, a, hc⟩)
        · exact hr
        · rw [hfa] at hc
          cases hc

theorem locateStep_anc_mono (snap mbanc : Dict) (fuel : Nat) (r : LocRes)
    (h0 k : Handle) (hk : (lk r.ancestries k).isSome) :
    (lk (locateStep snap mbanc fuel r h0).ancestries k).isSome := by
  unfold locateStep
  by_cases hskip : (lk snap h0).isSome
  · rw [if_pos hskip]
    exact hk
  · rw [if_neg hskip]
    have hanc1 : (match lk mbanc h0 with
        | some e => { r with located := dUpdate r.located [(h0, e)] }
        | none => r).ancestries = r.ancestries := by
      cases lk mbanc h0 <;> rfl
    cases hfa : fullAncestry mbanc h0 fuel with
    | found a =>
      by_cases ha : a.isEmpty
      · simpa [hfa, ha, hanc1] using hk
      · simp only [hfa]
        rw [if_neg ha]
        exact lk_dUpdate_isSome_left a (by rw [hanc1]; exact hk)
    | fuelOut => simpa [hfa, hanc1] using hk
    | failed => simpa [hfa, hanc1] using hk

theorem locateStep_anc_chain (snap mbanc : Dict) (fuel : Nat) (r : LocRes)
    (h0 : Handle) (hsnap : lk snap h0 = none) {a : Dict}
    (hfa : fullAncestry mbanc h0 fuel = FARes.found a) (k : Handle)
    (hk : (lk a k).isSome) :
    (lk (locateStep snap mbanc fuel r h0).ancestries k).isSome := by
  unfold locateStep
  rw [if_neg (by rw [hsnap]; simp)]
  obtain ⟨info, tail, _, hshape⟩ := fullAncestry_shape hfa
  obtain ⟨e, he⟩ := Option.isSome_iff_exists.mp hk
  cases hm : lk mbanc h0 <;>
    · simp only [hfa, hshape, List.isEmpty_cons, if_neg Bool.false_ne_true]
      rw [← hshape] at *
      simp [lk_dUpdate_of_mem _ he]

theorem locateBatch_foldl_located (snap mbanc : Dict) (fuel : Nat) :
    ∀ (l : List Handle) (r : LocRes) (d : Handle),
      lk ((l.foldl (locateStep snap mbanc fuel) r).located) d =
        if d ∈ l ∧ lk snap d = none ∧ (lk mbanc d).isSome
        then lk mbanc d else lk r.located d := by
  intro l
  induction l with
  | nil => intro r d; simp
  | cons h0 rest ih =>
    intro r d
    rw [List.foldl_cons, ih, locateStep_located]
    by_cases h1 : d ∈ rest ∧ lk snap d = none ∧ (lk mbanc d).isSome
    · rw [if_pos h1, if_pos ⟨List.mem_cons_of_mem h0 h1.1, h1.2⟩]
    · rw [if_neg h1]
      by_cases h2 : d = h0 ∧ lk snap d = none ∧ (lk mbanc d).isSome
      · rw [if_pos h2, if_pos ⟨h2.1 ▸ List.mem_cons_self h0 rest, h2.2⟩]
      · rw [if_neg h2]
        have h3 : ¬ (d ∈ h0 :: rest ∧ lk snap d = none ∧ (lk mbanc d).isSome) := by
          rintro ⟨hm, hP⟩
          rcases List.mem_cons.mp hm with rfl | hm'
          · exact h2 ⟨rfl, hP⟩
          · exact h1 ⟨hm', hP⟩
        rw [if_neg h3]

theorem locateBatch_foldl_got (snap mbanc : Dict) (fuel : Nat) :
    ∀ (l : List Handle) (r : LocRes) (d : Handle),
      d ∈ (l.foldl (locateStep snap mbanc fuel) r).gotAncestry ↔
        d ∈ r.gotAncestry ∨
          (d ∈ l ∧ lk snap d = none ∧
            ∃ a, fullAncestry mbanc d fuel = FARes.found a) := by
  intro l
  induction l with
  | nil => intro r d; simp
  | cons h0 rest ih =>
    intro r d
    rw [List.foldl_cons, ih]
    constructor
    · rintro (hstep | ⟨hm, hQ⟩)
      · rcases (locateStep_got snap mbanc fuel r h0 d).mp hstep with hr | ⟨heq, hQ⟩
        · exact Or.inl hr
        · exact Or.inr ⟨by rw [heq]; exact List.mem_cons_self h0 rest, hQ⟩
      · exact Or.inr ⟨List.mem_cons_of_mem h0 hm, hQ⟩
    · rintro (hr | ⟨hm, hQ⟩)
      · exact Or.inl ((locateStep_got snap mbanc fuel r h0 d).mpr (Or.inl hr))
      · rcases List.mem_cons.mp hm with heq | hm'
        · exact Or.inl ((locateStep_got snap mbanc fuel r h0 d).mpr (Or.inr ⟨heq, hQ⟩))
        · exact Or.inr ⟨hm', hQ⟩

theorem locateBatch_foldl_anc_mono (snap mbanc : Dict) (fuel : Nat) :
    ∀ (l : List Handle) (r : LocRes) (k : Handle),
      (lk r.ancestries k).isSome →
      (lk ((l.foldl (locateStep snap mbanc fuel) r).ancestries) k).isSome := by
  intro l
  induction l with
  | nil => intro r k hk; exact hk
  | cons h0 rest ih =>
    intro r k hk
    exact ih _ k (locateStep_anc_mono snap mbanc fuel r h0 k hk)

theorem locateBatch_foldl_anc_chain (snap mbanc : Dict) (fuel : Nat) :
    ∀ (l : List Handle) (r : LocRes) (d : Handle), d ∈ l → lk snap d = none →
      ∀ {a : Dict}, fullAncestry mbanc d fuel = FARes.found a →
      ∀ k, (lk a k).isSome →
      (lk ((l.foldl (locateStep snap mbanc fuel) r).ancestries) k).isSome := by
  intro l
  induction l with
  | nil => intro r d hd; simp at hd
  | cons h0 rest ih =>
    intro r d hd hsnap a hfa k hk
    rcases List.mem_cons.mp hd with rfl | hd'
    · rw [List.foldl_cons]
      exact locateBatch_foldl_anc_mono snap mbanc fuel rest _ k
        (locateStep_anc_chain snap mbanc fuel r d hsnap hfa k hk)
    · rw [List.foldl_cons]
      exact ih _ d hd' hsnap hfa k hk

theorem locateBatch_filter (missing : List Handle) (snap mbanc : Dict) (fuel : Nat) :
    locateBatch missing snap mbanc fuel =
      locateBatch (missing.filter (fun d => lk snap d = none)) snap mbanc fuel := by
  unfold locateBatch
  have key : ∀ (l : List Handle) (r : LocRes),
      l.foldl (locateStep snap mbanc fuel) r =
        (l.filter (fun d => lk snap d = none)).foldl (locateStep snap mbanc fuel) r := by
    intro l
    induction l with
    | nil => intro r; rfl
    | cons h0 rest ih =>
      intro r
      by_cases hs : lk snap h0 = none
      · rw [List.filter_cons_of_pos (by simpa using hs), List.foldl_cons,
          List.foldl_cons, ih]
      · have hskip : (lk snap h0).isSome := by
          cases hc : lk snap h0 with
          | none => exact absurd hc hs
          | some e => rfl
        rw [List.filter_cons_of_neg (by simpa using hs), List.foldl_cons,
          locateStep_skip snap mbanc fuel r h0 hskip, ih]
  exact key missing _

end LocateWorker

section ClaimFive

/-- C5. Locate worker result characterization: for a broadcast missing
handle not already in the global `ancestries` snapshot, the worker
records it in `located` exactly with the entry this Multi-Batch's map has
for it (none when absent); records it in `gotAncestry` exactly when the
complete chain to a root exists in this Multi-Batch's map, in which case
the whole chain's keys enter the worker's `ancestries`; and handles
already in the snapshot are skipped entirely (the worker behaves as if
they were not in the broadcast set). -/
theorem claim5_locate_worker (missing : List Handle) (snap mbanc : Dict)
    (fuel : Nat) (dfh : Handle) (hmem : dfh ∈ missing)
    (hsnap : lk snap dfh = none) :
    lk (locateBatch missing snap mbanc fuel).located dfh = lk mbanc dfh
    ∧ (dfh ∈ (locateBatch missing snap mbanc fuel).gotAncestry ↔
        ∃ a, fullAncestry mbanc dfh fuel = FARes.found a)
    ∧ (∀ a, fullAncestry mbanc dfh fuel = FARes.found a →
        ∀ k, (lk a k).isSome →
          (lk (locateBatch missing snap mbanc fuel).ancestries k).isSome)
    ∧ locateBatch missing snap mbanc fuel
        = locateBatch (missing.filter (fun d => lk snap d = none)) snap mbanc fuel := by
  refine ⟨?_, ?_, ?_, locateBatch_filter missing snap mbanc fuel⟩
  · rw [locateBatch, locateBatch_foldl_located]
    by_cases hms : (lk mbanc dfh).isSome
    · rw [if_pos ⟨hmem, hsnap, hms⟩]
    · rw [if_neg (by rintro ⟨_, _, hc⟩; exact hms hc)]
      rw [Option.not_isSome_iff_eq_none.mp hms]
      rfl
  · rw [locateBatch, locateBatch_foldl_got]
    constructor
    · rintro (hc | ⟨_, _, ha⟩)
      · simp at hc
      · exact ha
    · intro ha
      exact Or.inr ⟨hmem, hsnap, ha⟩
  · intro a hfa k hk
    rw [locateBatch]
    exact locateBatch_foldl_anc_chain snap mbanc fuel missing _ dfh hmem hsnap hfa k hk

end ClaimFive

section ClaimSeven

/-- C7 as stated is refuted: two genuine Locate worker results that
locate the same handle with different entries produce different final
`locatedDirs` (and `ancestries`) depending on the order in which the
orchestrator folds them in — `dict.update` is not commutative on
conflicting keys. -/
theorem claim7_counterexample :
    ¬ stateEqv
        (applyLocate (applyLocate (initState ∅)
            (locateBatch [5] [] ancFive 5))
          (locateBatch [5] [] ancFiveAlt 5))
        (applyLocate (applyLocate (initState ∅)
            (locateBatch [5] [] ancFiveAlt 5))
          (locateBatch [5] [] ancFive 5)) := by
  intro hEq
  have h5 := hEq.2.1 5
  exact absurd h5 (by decide)

/-- C7 amended: folding per-batch worker results into the session state
is order-insensitive for the set components (`missingDirs` under
Diagnosing, `gotAncestry` under Locating) unconditionally, and for the
dict components (`locatedDirs`, `ancestries`) whenever the two results
agree on every key both of them define; a conflicting shared key makes
the later-folded result win, so full order-insensitivity fails there. -/
theorem claim7_amended (st : RState) (r1 r2 : LocRes) (m1 m2 : Finset Handle)
    (hcompatL : ∀ h, lk r1.located h = none ∨ lk r2.located h = none ∨
      lk r1.located h = lk r2.located h)
    (hcompatA : ∀ h, lk r1.ancestries h = none ∨ lk r2.ancestries h = none ∨
      lk r1.ancestries h = lk r2.ancestries h) :
    applyDiagnose (applyDiagnose st m1) m2 = applyDiagnose (applyDiagnose st m2) m1
    ∧ stateEqv (applyLocate (applyLocate st r1) r2)
        (applyLocate (applyLocate st r2) r1) := by
  constructor
  · unfold applyDiagnose
    simp only [Finset.union_assoc]
    rw [Finset.union_comm m1 m2]
  · refine ⟨rfl, ?_, ?_, ?_⟩
    · intro h
      show lk (dUpdate (dUpdate st.locatedDirs r1.located) r2.located) h =
        lk (dUpdate (dUpdate st.locatedDirs r2.located) r1.located) h
      simp only [dUpdate, lk_append]
      rcases hcompatL h with h1 | h2 | h12
      · rw [h1]
        cases lk r2.located h <;> simp [Option.orElse]
      · rw [h2]
        cases lk r1.located h <;> simp [Option.orElse]
      · rw [h12]
    · show st.gotAncestry ∪ r1.gotAncestry ∪ r2.gotAncestry =
        st.gotAncestry ∪ r2.gotAncestry ∪ r1.gotAncestry
      simp only [Finset.union_assoc]
      rw [Finset.union_comm r1.gotAncestry r2.gotAncestry]
    · intro h
      show lk (dUpdate (dUpdate st.ancestries r1.ancestries) r2.ancestries) h =
        lk (dUpdate (dUpdate st.ancestries r2.ancestries) r1.ancestries) h
      simp only [dUpdate, lk_append]
      rcases hcompatA h with h1 | h2 | h12
      · rw [h1]
        cases lk r2.ancestries h <;> simp [Option.orElse]
      · rw [h2]
        cases lk r1.ancestries h <;> simp [Option.orElse]
      · rw [h12]

end ClaimSeven

section Runner

theorem diagnosePhaseE_noCorrupt (tm : Bool) (fuel : Nat) :
    ∀ (l : List (Option MultiBatch)) (s : Finset Handle), none ∉ l →
      diagnosePhaseE tm fuel l s =
        some ((l.filterMap id).foldl
          (fun s mb => s ∪ diagnoseBatch tm mb fuel) s) := by
  intro l
  induction l with
  | nil => intro s _; rfl
  | cons b rest ih =>
    intro s hnc
    cases b with
    | none => exact absurd (List.mem_cons_self _ _) hnc
    | some mb =>
      show diagnosePhaseE tm fuel rest (s ∪ diagnoseBatch tm mb fuel) = _
      rw [ih _ (fun hcm => hnc (List.mem_cons_of_mem _ hcm))]
      simp [List.filterMap_cons]

theorem diagnosePhaseE_corrupt (tm : Bool) (fuel : Nat) :
    ∀ (l : List (Option MultiBatch)) (s : Finset Handle), none ∈ l →
      diagnosePhaseE tm fuel l s = none := by
  intro l
  induction l with
  | nil => intro s h; simp at h
  | cons b rest ih =>
    intro s h
    cases b with
    | none => rfl
    | some mb =>
      rcases List.mem_cons.mp h with hcm | h'
      · exact absurd hcm (by simp)
      · exact ih _ h'

theorem locatePhaseE_noCorrupt (missing : Finset Handle) (fuel : Nat) :
    ∀ (l : List (Option MultiBatch)) (st : RState), none ∉ l →
      locatePhaseE missing fuel l st =
        some ((l.filterMap id).foldl
          (fun st mb =>
            applyLocate st
              (locateBatch (missing.sort (· ≤ ·)) st.ancestries mb.ancestry fuel)) st) := by
  intro l
  induction l with
  | nil => intro st _; rfl
  | cons b rest ih =>
    intro st hnc
    cases b with
    | none => exact absurd (List.mem_cons_self _ _) hnc
    | some mb =>
      show locatePhaseE missing fuel rest _ = _
      rw [ih _ (fun hcm => hnc (List.mem_cons_of_mem _ hcm))]
      simp [List.filterMap_cons]

/-- C8. Phase gating: the Replacing rename sequence runs only when both
the rebuild and the replace options were chosen and Rebuilding completed
(the trailer was written); and without the rebuild option the run
performs no rename, creates no new index file, and its console output
ends with the Locating report of the four counts followed by the
skipped-rebuild message. -/
theorem claim8_phase_gating (rebuildOpt replaceOpt tm hasRenamef : Bool)
    (idx : List (Option MultiBatch)) (fuel : Nat) :
    ((runIndexDiag rebuildOpt replaceOpt tm hasRenamef idx fuel).renames ≠ [] →
      rebuildOpt = true ∧ replaceOpt = true ∧
      (runIndexDiag rebuildOpt replaceOpt tm hasRenamef idx fuel).wroteTrailer = true)
    ∧ (rebuildOpt = false → none ∉ idx →
        (runIndexDiag rebuildOpt replaceOpt tm hasRenamef idx fuel).renames = []
        ∧ (runIndexDiag rebuildOpt replaceOpt tm hasRenamef idx fuel).createdNewIndex = false
        ∧ (runIndexDiag rebuildOpt replaceOpt tm hasRenamef idx fuel).logs =
            [LogEvent.phase1Start,
             LogEvent.missingTotal (diagnosePhase tm (idx.filterMap id) fuel).card,
             LogEvent.phase2Start,
             LogEvent.locateReport (diagnosePhase tm (idx.filterMap id) fuel).card
               (dlen (locatePhase (diagnosePhase tm (idx.filterMap id) fuel)
                 (idx.filterMap id) fuel).locatedDirs)
               (locatePhase (diagnosePhase tm (idx.filterMap id) fuel)
                 (idx.filterMap id) fuel).gotAncestry.card
               (dlen (locatePhase (diagnosePhase tm (idx.filterMap id) fuel)
                 (idx.filterMap id) fuel).ancestries),
             LogEvent.phase3Start, LogEvent.skippedRebuild]) := by
  constructor
  · intro h
    unfold runIndexDiag at h ⊢
    cases hd : diagnosePhaseE tm fuel idx ∅ with
    | none => simp [hd] at h
    | some missing =>
      simp only [hd] at h ⊢
      cases hl : locatePhaseE missing fuel idx (initState missing) with
      | none => simp [hl] at h
      | some st =>
        simp only [hl] at h ⊢
        cases rebuildOpt with
        | false => simp at h
        | true =>
          simp only [if_neg (by simp : ¬ (true = false))] at h ⊢
          cases hrb : (rebuildPhaseE st.ancestries idx).2 with
          | false => simp [hrb] at h
          | true =>
            simp only [hrb, if_neg (by simp : ¬ (true = false))] at h ⊢
            cases replaceOpt with
            | false => simp at h
            | true =>
              simp only [if_neg (by simp : ¬ (true = false))]
              refine ⟨?_, ?_, ?_⟩ <;> simp
  · intro hro hnc
    have hD : diagnosePhaseE tm fuel idx ∅ =
        some (diagnosePhase tm (idx.filterMap id) fuel) := by
      rw [diagnosePhaseE_noCorrupt tm fuel idx ∅ hnc]
      rfl
    have hL : locatePhaseE (diagnosePhase tm (idx.filterMap id) fuel) fuel idx
        (initState (diagnosePhase tm (idx.filterMap id) fuel)) =
        some (locatePhase (diagnosePhase tm (idx.filterMap id) fuel)
          (idx.filterMap id) fuel) := by
      rw [locatePhaseE_noCorrupt (diagnosePhase tm (idx.filterMap id) fuel) fuel idx
        (initState (diagnosePhase tm (idx.filterMap id) fuel)) hnc]
      rfl
    unfold runIndexDiag
    simp only [hD, hL, hro, if_pos rfl]
    exact ⟨rfl, rfl, rfl⟩

/-- C9. CorruptIndex atomicity: if any batch of the streamed index fails
to decode, the run aborts as corrupt before anything durable happens: no
rename of the Replacing sequence is performed, the `.new` index file is
never created, no batch record and no trailer is appended — the original
index is left untouched.  (In the strictly sequential phase order the
corrupt batch is already hit while Diagnosing, so Rebuilding never
starts, whichever options were chosen.) -/
theorem claim9_corrupt_abort (rebuildOpt replaceOpt tm hasRenamef : Bool)
    (idx : List (Option MultiBatch)) (fuel : Nat) (hc : none ∈ idx) :
    (runIndexDiag rebuildOpt replaceOpt tm hasRenamef idx fuel).corrupt = true
    ∧ (runIndexDiag rebuildOpt replaceOpt tm hasRenamef idx fuel).renames = []
    ∧ (runIndexDiag rebuildOpt replaceOpt tm hasRenamef idx fuel).createdNewIndex = false
    ∧ (runIndexDiag rebuildOpt replaceOpt tm hasRenamef idx fuel).appended = []
    ∧ (runIndexDiag rebuildOpt replaceOpt tm hasRenamef idx fuel).wroteTrailer = false := by
  unfold runIndexDiag
  rw [diagnosePhaseE_corrupt tm fuel idx ∅ hc]
  exact ⟨rfl, rfl, rfl, rfl, rfl⟩

end Runner

section Termination

/-- A Diagnose walk that runs out of fuel has inspected exactly
fuel-many handles, all of them present in the map. -/
theorem diagWalk_fuelOut_trace {anc : Dict} :
    ∀ {fuel : Nat} {s : Option Handle},
      diagWalk anc s fuel = DWRes.fuelOut →
      (walkTrace anc s fuel).length = fuel ∧
      ∀ g ∈ walkTrace anc s fuel, (lk anc g).isSome := by
  intro fuel
  induction fuel with
  | zero =>
    intro s _
    cases s <;> simp [walkTrace]
  | succ n ih =>
    intro s hw
    cases s with
    | none => simp [diagWalk] at hw
    | some p =>
      cases hlk : lk anc p with
      | none => rw [diagWalk_lk_none hlk] at hw; cases hw
      | some e =>
        rw [diagWalk_lk_some hlk] at hw
        obtain ⟨hlen, hall⟩ := ih hw
        rw [walkTrace_lk_some hlk]
        refine ⟨by simp [hlen], ?_⟩
        intro g hg
        rcases List.mem_cons.mp hg with rfl | hg'
        · simp [hlk]
        · exact hall g hg'

/-- The `fullAncestry` walk and the Diagnose walk from the same handle
consume fuel in lockstep: one runs out exactly when the other does. -/
theorem fullAncestry_fuelOut_iff {anc : Dict} :
    ∀ {fuel : Nat} {d : Handle},
      fullAncestry anc d fuel = FARes.fuelOut ↔
      diagWalk anc (some d) fuel = DWRes.fuelOut := by
  intro fuel
  induction fuel with
  | zero => intro d; simp [fullAncestry, diagWalk]
  | succ n ih =>
    intro d
    cases hlk : lk anc d with
    | none =>
      rw [diagWalk_lk_none hlk]
      constructor
      · intro hfa
        unfold fullAncestry at hfa
        rw [hlk] at hfa
        cases hfa
      · intro hc
        cases hc
    | some info =>
      rw [diagWalk_lk_some hlk]
      cases hpar : info.parfh with
      | none =>
        constructor
        · intro hfa
          unfold fullAncestry at hfa
          rw [hlk] at hfa
          simp only [hpar] at hfa
          cases hfa
        · intro hc
          simp [diagWalk] at hc
      | some q =>
        have hfa_eq : fullAncestry anc d (n+1) =
            (match fullAncestry anc q n with
             | FARes.found dirs => FARes.found ((d, info) :: dirs)
             | r => r) := by
          simp only [fullAncestry, hlk, hpar]
        cases hrec : fullAncestry anc q n with
        | fuelOut =>
          rw [hrec] at hfa_eq
          rw [hfa_eq]
          simp only [true_iff, iff_true]
          exact ih.mp hrec
        | failed =>
          rw [hrec] at hfa_eq
          rw [hfa_eq]
          constructor
          · intro hc
            cases hc
          · intro hc
            rw [← ih] at hc
            rw [hrec] at hc
            cases hc
        | found dirs =>
          rw [hrec] at hfa_eq
          rw [hfa_eq]
          constructor
          · intro hc
            cases hc
          · intro hc
            rw [← ih] at hc
            rw [hrec] at hc
            cases hc

/-- Starting anywhere on a cycle of handles closed under the recorded
parent step, the Diagnose walk never settles at any fuel. -/
theorem cycle_diagWalk_fuelOut {anc : Dict} {S : Finset Handle}
    (hS : ∀ g ∈ S, ∃ e q, lk anc g = some e ∧ e.parfh = some q ∧ q ∈ S) :
    ∀ (fuel : Nat) (g : Handle), g ∈ S →
      diagWalk anc (some g) fuel = DWRes.fuelOut := by
  intro fuel
  induction fuel with
  | zero => intro g _; rfl
  | succ n ih =>
    intro g hg
    obtain ⟨e, q, he, hq, hqS⟩ := hS g hg
    rw [diagWalk_lk_some he, hq]
    exact ih q hqS

/-- If some walk reaches a handle lying on a closed parent cycle, then
the walk from that start never settles, at any fuel. -/
theorem cycleReach_diagWalk_fuelOut {anc : Dict} {S : Finset Handle}
    (hS : ∀ g ∈ S, ∃ e q, lk anc g = some e ∧ e.parfh = some q ∧ q ∈ S) :
    ∀ (fuel0 : Nat) (s : Option Handle),
      (∃ g ∈ walkTrace anc s fuel0, g ∈ S) →
      ∀ fuel, diagWalk anc s fuel = DWRes.fuelOut := by
  intro fuel0
  induction fuel0 with
  | zero =>
    intro s hg
    obtain ⟨g, hg, _⟩ := hg
    cases s <;> simp [walkTrace] at hg
  | succ n ih =>
    intro s hg fuel
    obtain ⟨g, hg, hgS⟩ := hg
    cases s with
    | none => simp [walkTrace] at hg
    | some p =>
      cases hlk : lk anc p with
      | none =>
        rw [walkTrace_lk_none hlk] at hg
        rcases List.mem_singleton.mp hg with rfl
        obtain ⟨e, q, he, _, _⟩ := hS g hgS
        rw [hlk] at he
        cases he
      | some e =>
        rw [walkTrace_lk_some hlk] at hg
        rcases List.mem_cons.mp hg with rfl | hg'
        · exact cycle_diagWalk_fuelOut hS fuel g hgS
        · cases fuel with
          | zero => rfl
          | succ m =>
            rw [diagWalk_lk_some hlk]
            exact ih e.parfh ⟨g, hg', hgS⟩ m

/-- C10. Termination of the ancestry walks: when every trace from a
starting handle is free of repeats (an acyclic parent chain), some fuel
settles both the Diagnose walk and `fullAncestry` — the Python loops
terminate; when the mapping holds a parent cycle that some walk reaches,
the Diagnose walk from that start and `fullAncestry` from that handle
run out of any fuel — the Python loops never terminate, as neither
guards against revisiting a handle. -/
theorem claim10_termination :
    (∀ (anc : Dict) (d : Handle),
      (∀ fuel, (walkTrace anc (some d) fuel).Nodup) →
      ∃ fuel, diagWalk anc (some d) fuel ≠ DWRes.fuelOut ∧
        fullAncestry anc d fuel ≠ FARes.fuelOut)
    ∧ (∀ (anc : Dict) (S : Finset Handle),
        (∀ g ∈ S, ∃ e q, lk anc g = some e ∧ e.parfh = some q ∧ q ∈ S) →
        ∀ (d : Handle), (∃ fuel0, ∃ g ∈ walkTrace anc (some d) fuel0, g ∈ S) →
          ∀ fuel, diagWalk anc (some d) fuel = DWRes.fuelOut ∧
            fullAncestry anc d fuel = FARes.fuelOut) := by
  constructor
  · intro anc d hacyc
    have hmain : diagWalk anc (some d) ((anc.map Prod.fst).toFinset.card + 1)
        ≠ DWRes.fuelOut := by
      intro hfo
      obtain ⟨hlen, hall⟩ := diagWalk_fuelOut_trace hfo
      have hsub : (walkTrace anc (some d) ((anc.map Prod.fst).toFinset.card + 1)).toFinset
          ⊆ (anc.map Prod.fst).toFinset := by
        intro g hg
        rw [List.mem_toFinset] at hg
        obtain ⟨e, he⟩ := Option.isSome_iff_exists.mp (hall g hg)
        exact List.mem_toFinset.mpr (lk_key_mem he)
      have hcard := Finset.card_le_card hsub
      rw [List.toFinset_card_of_nodup (hacyc _), hlen] at hcard
      omega
    exact ⟨(anc.map Prod.fst).toFinset.card + 1, hmain,
      fun hfo => hmain (fullAncestry_fuelOut_iff.mp hfo)⟩
  · intro anc S hS d hreach fuel
    obtain ⟨fuel0, hg⟩ := hreach
    have hdw := cycleReach_diagWalk_fuelOut hS fuel0 (some d) hg
    exact ⟨hdw fuel, fullAncestry_fuelOut_iff.mpr (hdw fuel)⟩

end Termination

section Witnesses

/-- Witness for C1 at a concrete two-batch index: one batch with a hole
at handle 2, one batch holding the full chain for 2. -/
theorem claim1_roundtrip_witness :
    diagnosePhase false
        (rebuildPhase
          (locatePhase (diagnosePhase false [mbHole, mbChain] 5) [mbHole, mbChain] 5).ancestries
          [mbHole, mbChain]) 5
      ⊆ diagnosePhase false [mbHole, mbChain] 5 \
          (locatePhase (diagnosePhase false [mbHole, mbChain] 5) [mbHole, mbChain] 5).gotAncestry :=
  claim1_roundtrip [mbHole, mbChain] 5

/-- Witness for the amended C2: handle 1 is reached, not missing, and
indeed present in the batch map. -/
theorem claim2_amended_witness : (lk mbHole.ancestry 1).isSome :=
  claim2_amended false [mbHole] 5 mbHole fileParOne 1
    (List.mem_singleton_self mbHole) (by decide) (by decide) (by decide)

/-- Witness for C3: after locating over the chain batch, handle 2 is
ancestry-complete and its recorded chain reaches a root. -/
theorem claim3_closure_witness :
    ReachesRoot (locatePhase {2} ([mbChain].take 1) 5).ancestries (some 2) := by
  refine (claim3_closure {2} [mbChain] 5 1).2 2 ?_
  show 2 ∈ (applyLocate (initState {2})
    (locateBatch (Finset.sort (· ≤ ·) {2}) (initState {2}).ancestries
      mbChain.ancestry 5)).gotAncestry
  refine Finset.mem_union.mpr (Or.inr ?_)
  refine (locateBatch_foldl_got (initState {2}).ancestries mbChain.ancestry 5
    (Finset.sort (· ≤ ·) {2}) ⟨[], ∅, []⟩ 2).mpr (Or.inr ⟨?_, rfl, ?_⟩)
  · rw [Finset.mem_sort]
    exact Finset.mem_singleton_self 2
  · exact ⟨[(2, entTwoParOne), (1, entOneRoot)], by decide⟩

/-- Witness for C4 on a chain with its nearer ancestor absent: the walk
from the file entry records exactly handle 2, the first hole. -/
theorem claim4_first_hole_witness :
    lk mbHole.ancestry 2 = none ∧
    ∃ t, walkTrace mbHole.ancestry (some 1) 5 = t ++ [2] ∧
      ∀ g ∈ t, (lk mbHole.ancestry g).isSome :=
  claim4_first_hole (by decide)

/-- Witness for C5 at the chain batch: missing handle 2 is located with
its entry, marked ancestry-complete, and its chain keys are recorded. -/
theorem claim5_locate_worker_witness :
    lk (locateBatch [2] [] mbChain.ancestry 5).located 2 = lk mbChain.ancestry 2
    ∧ (2 ∈ (locateBatch [2] [] mbChain.ancestry 5).gotAncestry ↔
        ∃ a, fullAncestry mbChain.ancestry 2 5 = FARes.found a)
    ∧ (∀ a, fullAncestry mbChain.ancestry 2 5 = FARes.found a →
        ∀ k, (lk a k).isSome →
          (lk (locateBatch [2] [] mbChain.ancestry 5).ancestries k).isSome)
    ∧ locateBatch [2] [] mbChain.ancestry 5
        = locateBatch ([2].filter (fun d => lk [] d = none)) [] mbChain.ancestry 5 :=
  claim5_locate_worker [2] [] mbChain.ancestry 5 2 (by decide) rfl

/-- Witness for the amended C7: folding a worker result and the empty
worker result commutes (they define no common key). -/
theorem claim7_amended_witness :
    applyDiagnose (applyDiagnose (initState ∅) {2}) {3}
      = applyDiagnose (applyDiagnose (initState ∅) {3}) {2}
    ∧ stateEqv
        (applyLocate (applyLocate (initState ∅) (locateBatch [5] [] ancFive 5))
          (locateBatch [] [] ([] : Dict) 5))
        (applyLocate (applyLocate (initState ∅) (locateBatch [] [] ([] : Dict) 5))
          (locateBatch [5] [] ancFive 5)) :=
  claim7_amended (initState ∅) (locateBatch [5] [] ancFive 5)
    (locateBatch [] [] ([] : Dict) 5) {2} {3}
    (fun _ => Or.inr (Or.inl rfl)) (fun _ => Or.inr (Or.inl rfl))

/-- Witness for C8: with replace requested but rebuild absent, the run
performs no rename. -/
theorem claim8_phase_gating_witness :
    (runIndexDiag false true false false [some mbChain] 5).renames = [] :=
  ((claim8_phase_gating false true false false [some mbChain] 5).2 rfl
    (by decide)).1

/-- Witness for C9 at an index whose only batch is corrupt. -/
theorem claim9_corrupt_abort_witness :
    (runIndexDiag true true false false [none] 5).corrupt = true
    ∧ (runIndexDiag true true false false [none] 5).renames = []
    ∧ (runIndexDiag true true false false [none] 5).createdNewIndex = false
    ∧ (runIndexDiag true true false false [none] 5).appended = []
    ∧ (runIndexDiag true true false false [none] 5).wroteTrailer = false :=
  claim9_corrupt_abort true true false false [none] 5 (by decide)

/-- Witness for C10: the walk over the empty map settles at some fuel,
and over the one-step self-loop both walks are still running at fuel 7. -/
theorem claim10_termination_witness :
    (∃ fuel, diagWalk ([] : Dict) (some 1) fuel ≠ DWRes.fuelOut ∧
      fullAncestry ([] : Dict) 1 fuel ≠ FARes.fuelOut)
    ∧ (diagWalk ancSelfLoop (some 1) 7 = DWRes.fuelOut ∧
        fullAncestry ancSelfLoop 1 7 = FARes.fuelOut) := by
  constructor
  · refine claim10_termination.1 [] 1 ?_
    intro fuel
    cases fuel with
    | zero => simp [walkTrace]
    | succ n =>
      rw [walkTrace_lk_none (show lk ([] : Dict) 1 = none from rfl)]
      simp
  · refine claim10_termination.2 ancSelfLoop {1} ?_ 1 ⟨1, 1, by decide, by decide⟩ 7
    intro g hg
    rw [Finset.mem_singleton] at hg
    subst hg
    exact ⟨entSelfLoop, 1, rfl, rfl, Finset.mem_singleton_self 1⟩

end Witnesses

end XcpIndexDiag
